import Mathlib

/-!
# Verification of the go-sitemap crawler against its specification

This file gives a shallow embedding, in Lean 4, of the parts of the
go-sitemap repository that the specification claims talk about:

* the URL normalizer `parseURL` and host comparison `sameHost`
  (documentparser.go), on top of a model of Go's `net/url` parsing and
  serialization restricted to the fields the repository uses
  (`Scheme`, `Opaque`, `Host`, `Path`, `RawQuery`, `Fragment`);
* the HTML extractor `parseNode` / `ParseDocument` (documentparser.go),
  taking the already-parsed HTML node tree as input (the HTML parser is an
  external collaborator);
* the site map: `CreateWebPage`, `AddPage`, `getMinimumHeights` and
  `doDepthFirstTraversal` (sitemap.go);
* the crawl engine's dedup / limit / ingest pipeline (crawler.go),
  modelled as a small-step transition system over the stage-local state.

Strings are Lean `String`s; all operations are defined through the
underlying `List Char`, mirroring Go's `strings` package functions
byte-for-byte on ASCII data.  Scope restrictions of the `net/url` model
(documented where relevant): percent-escaping is not modelled (components
are kept raw), user-info (`user@host`), bracketed IPv6 hosts, `ForceQuery`
(a lone trailing `?`) and `OmitHost` are not modelled, and case folding is
ASCII.  None of the claims under verification depends on those corners.
-/

/-- The characters of a string. -/
def chars (s : String) : List Char := s.data

/-- Build a string back from its characters. -/
def strOf (l : List Char) : String := String.mk l

/-- `isPreC p l` is true when `p` is a prefix of `l` (Go `strings.HasPrefix`). -/
def isPreC : List Char → List Char → Bool
  | [], _ => true
  | _ :: _, [] => false
  | p :: ps, c :: cs => p == c && isPreC ps cs

/-- Go `strings.HasPrefix s pre`. -/
def hasPreS (s pre : String) : Bool := isPreC (chars pre) (chars s)

/-- Go `strings.HasSuffix s suf`. -/
def hasSufS (s suf : String) : Bool := isPreC (chars suf).reverse (chars s).reverse

/-- Go `strings.TrimSuffix s suf`: removes one copy of `suf` when present. -/
def trimSufS (s suf : String) : String :=
  if hasSufS s suf then strOf (((chars s).reverse.drop (chars suf).length).reverse) else s

/-- Go `strings.TrimPrefix s pre`: removes one copy of `pre` when present. -/
def trimPreS (s pre : String) : String :=
  if hasPreS s pre then strOf ((chars s).drop (chars pre).length) else s

/-- ASCII lower-casing, Go `strings.ToLower` on ASCII data. -/
def lowerS (s : String) : String := strOf ((chars s).map Char.toLower)

/-- Go `strings.EqualFold` (ASCII folding). -/
def equalFoldS (a b : String) : Bool := lowerS a == lowerS b

/-- Go `strings.Contains s (String.singleton c)`. -/
def containsC (l : List Char) (c : Char) : Bool := l.any (· == c)

/-- `strings.Cut` at the first occurrence of `sep`:
returns (before, after, found); the separator itself is dropped. -/
def cut3 : List Char → Char → List Char × List Char × Bool
  | [], _ => ([], [], false)
  | c :: cs, sep =>
    if c == sep then ([], cs, true)
    else
      let r := cut3 cs sep
      (c :: r.1, r.2.1, r.2.2)

/-- Split at the first occurrence of `sep`, keeping `sep` at the head of the
second component (net/url's `split(s, sep, false)`). -/
def spanUntil (sep : Char) : List Char → List Char × List Char
  | [] => ([], [])
  | c :: cs =>
    if c == sep then ([], c :: cs)
    else
      let r := spanUntil sep cs
      (c :: r.1, r.2)

/-- The part of `l` from its last `sep` on (inclusive), if any. -/
def lastPartFrom (sep : Char) (l : List Char) : Option (List Char) :=
  match cut3 l.reverse sep with
  | (_, _, false) => none
  | (revAfter, _, true) => some (sep :: revAfter.reverse)

/-- Control bytes rejected by `net/url` (`stringContainsCTLByte`). -/
def isCtlChar (c : Char) : Bool := c.toNat < 0x20 || c.toNat == 0x7f

def hasCtl (l : List Char) : Bool := l.any isCtlChar

def isAlphaChar (c : Char) : Bool :=
  ('a' ≤ c && c ≤ 'z') || ('A' ≤ c && c ≤ 'Z')

def isSchemeExtraChar (c : Char) : Bool :=
  ('0' ≤ c && c ≤ '9') || c == '+' || c == '-' || c == '.'

def allDigits (l : List Char) : Bool := l.all fun c => '0' ≤ c && c ≤ '9'

/-- net/url `validOptionalPort`: empty, or `:` followed by digits only. -/
def validOptionalPortC (l : List Char) : Bool :=
  match l with
  | [] => true
  | c :: rest => c == ':' && allDigits rest

/-- net/url `getScheme`, worker: scans for `scheme:`.  `acc` holds the scheme
characters read so far, in reverse.  Returns `none` when the input has no
scheme, errors on a leading `:`. -/
def getSchemeAux (acc : List Char) : List Char → Except String (Option (List Char × List Char))
  | [] => .ok none
  | c :: cs =>
    if isAlphaChar c then getSchemeAux (c :: acc) cs
    else if isSchemeExtraChar c then
      if acc.isEmpty then .ok none else getSchemeAux (c :: acc) cs
    else if c == ':' then
      if acc.isEmpty then .error "missing protocol scheme"
      else .ok (some (acc.reverse, cs))
    else .ok none

/-- net/url `getScheme`: split `scheme:rest`, or return the input unchanged. -/
def getSchemeC (l : List Char) : Except String (List Char × List Char) :=
  match getSchemeAux [] l with
  | .error e => .error e
  | .ok none => .ok ([], l)
  | .ok (some (sch, rest)) => .ok (sch, rest)

/-- net/url `parseHost` restricted to the modelled fields: validates the
optional `:port` suffix (bracketed IPv6 hosts and percent-escapes are not
modelled). -/
def parseHostC (authority : List Char) : Except String (List Char) :=
  match lastPartFrom ':' authority with
  | none => .ok authority
  | some colonPort =>
    if validOptionalPortC colonPort then .ok authority else .error "invalid port after host"

/-- net/url `URL.Port()` applied to a raw `Host` value. -/
def portOfC (host : List Char) : List Char :=
  match lastPartFrom ':' host with
  | none => []
  | some colonPort => if validOptionalPortC colonPort then colonPort.drop 1 else []

/-- Model of Go's `url.URL` restricted to the fields the repository reads or
writes.  `opq` is the `Opaque` component. -/
structure GoURL where
  scheme : String
  opq : String
  host : String
  path : String
  rawQuery : String
  fragment : String
deriving DecidableEq

/-- `url.URL.IsAbs`. -/
def GoURL.isAbs (u : GoURL) : Bool := u.scheme != ""

/-- `url.URL.String()` on the modelled fields. -/
def GoURL.string (u : GoURL) : String :=
  strOf
    ((if u.scheme != "" then chars u.scheme ++ [':'] else [])
      ++ (if u.opq != "" then chars u.opq
          else
            (if u.scheme != "" || u.host != "" then
              (if u.host != "" || u.path != "" then '/' :: '/' :: chars u.host else [])
            else [])
            ++ (if u.path != "" && !hasPreS u.path "/" && u.host != "" then ['/'] else [])
            ++ chars u.path)
      ++ (if u.rawQuery != "" then '?' :: chars u.rawQuery else [])
      ++ (if u.fragment != "" then '#' :: chars u.fragment else []))

/-- `url.URL.Port()`. -/
def GoURL.port (u : GoURL) : String := strOf (portOfC (chars u.host))

/-- net/url `parse(rawURL, viaRequest=false)` on the fragment-free part:
control-byte check, scheme split (lower-cased), query split at the first
`?`, then either the opaque form, the authority form, or a bare path. -/
def parseCore (l : List Char) : Except String GoURL :=
  if hasCtl l then .error "net/url: invalid control character in URL"
  else
    match getSchemeC l with
    | .error e => .error e
    | .ok (schemeRaw, restAndQuery) =>
      let scheme := lowerS (strOf schemeRaw)
      let cutQ := cut3 restAndQuery '?'
      let rest := cutQ.1
      let rawQuery := strOf cutQ.2.1
      if !isPreC ['/'] rest && scheme != "" then
        .ok ⟨scheme, strOf rest, "", "", rawQuery, ""⟩
      else if !isPreC ['/'] rest && containsC (spanUntil '/' rest).1 ':' then
        .error "first path segment in URL cannot contain colon"
      else if (scheme != "" || !isPreC ['/', '/', '/'] rest) && isPreC ['/', '/'] rest then
        match parseHostC (spanUntil '/' (rest.drop 2)).1 with
        | .error e => .error e
        | .ok host => .ok ⟨scheme, "", strOf host, strOf (spanUntil '/' (rest.drop 2)).2, rawQuery, ""⟩
      else .ok ⟨scheme, "", "", strOf rest, rawQuery, ""⟩

/-- net/url `url.Parse`: split the fragment at the first `#`, parse the rest. -/
def urlParse (s : String) : Except String GoURL :=
  let cutF := cut3 (chars s) '#'
  match parseCore cutF.1 with
  | .error e => .error e
  | .ok u => .ok { u with fragment := strOf cutF.2.1 }

deriving instance DecidableEq for Except

/-- documentparser.go `sameHost`: hosts are equal up to case and an optional
leading `www.`. -/
def sameHost (h1 h2 : String) : Bool :=
  equalFoldS (trimPreS h1 "www.") (trimPreS h2 "www.")

/-- documentparser.go `parseURL` (the URL normalizer).  The Go function
returns `(bool, string, error)`; a non-nil error is modelled by the
`Except.error` case, and a nil error by `Except.ok (isInternal, canonical)`. -/
def parseURL (parent : GoURL) (href : String) : Except String (Bool × String) :=
  if !parent.isAbs then
    .error ("cannot resolve href as relative URL passed as parent: " ++ href)
  else
    let strURL := if hasPreS href "/" then ({ parent with path := href } : GoURL).string else href
    match urlParse strURL with
    | .error e => .error e
    | .ok result0 =>
      let result1 := if result0.scheme == "" then { result0 with scheme := parent.scheme } else result0
      if result1.scheme != "" && result1.scheme != "http" && result1.scheme != "https" then
        .ok (false, "")
      else
        let result2 := { result1 with path := trimSufS result1.path "/", fragment := "" }
        match urlParse result2.string with
        | .error e => .error e
        | .ok result =>
          if result.host == "" then .ok (false, "")
          else if !sameHost result.host parent.host then .ok (false, "")
          else if result.port != "" && result.port != parent.port then .ok (false, "")
          else if result.path == parent.path then .ok (false, "")
          else .ok (true, result.string)

/-- The parent URL of the spec's scenario E1: `http://en.wikipedia.com/path`. -/
def e1Parent : GoURL := ⟨"http", "", "en.wikipedia.com", "/path", "", ""⟩

/-- sitemap.go `WebPage`.  `InternalLinks` is a Go `map[string]bool` used as a
set; it is modelled as a list whose element order stands for the (runtime
chosen) order in which Go iterates the map. -/
structure WebPage where
  URL : GoURL
  Title : String
  InternalLinks : List String
deriving DecidableEq

/-- Go map insertion `m[k] = true` on the set-as-list representation. -/
def linkInsert (links : List String) (u : String) : List String :=
  if links.contains u then links else links ++ [u]

/-- sitemap.go `CreateWebPage`: build the page and strip one trailing `/` from
the URL path.  (The in-place mutation of the caller's `*url.URL` is modelled
separately by `CreateWebPageH` below.) -/
def CreateWebPage (newURL : GoURL) (title : String) : WebPage :=
  { URL := { newURL with path := trimSufS newURL.path "/" },
    Title := title,
    InternalLinks := [] }

/-- sitemap.go `CreateWebPage` with the Go heap made explicit: `*url.URL`
values are pointers (`Nat`) into a store `Nat → GoURL`.  The function writes
the trimmed path back through the caller's pointer and returns the new store
together with the page, whose `URL` field aliases that same pointer. -/
def CreateWebPageH (store : Nat → GoURL) (ptr : Nat) (title : String) :
    (Nat → GoURL) × (Nat × String) :=
  (fun q => if q = ptr then
      { store ptr with path := trimSufS (store ptr).path "/" }
    else store q,
   (ptr, title))

/-- sitemap.go `SiteMap`.  `Pages` is a Go `map[string]*WebPage`, modelled as
an association list; `lookupKV` returns the first binding. -/
structure SiteMap where
  Domain : String
  RootPage : String
  Pages : List (String × WebPage)
deriving DecidableEq

/-- First-match association list lookup (Go map read). -/
def lookupKV {β : Type} (k : String) : List (String × β) → Option β
  | [] => none
  | (k2, v) :: rest => if k == k2 then some v else lookupKV k rest

/-- sitemap.go `CreateSiteMap`. -/
def CreateSiteMap (start : GoURL) : SiteMap :=
  ⟨start.host, start.string, []⟩

/-- sitemap.go `AddPage`.  The Go signature is `(bool, error)` with the site
map mutated in place; the model returns `((added, err), site')` where a
non-nil error is `some message`.  A nil `*WebPage` argument is `none`. -/
def AddPage (site : SiteMap) (page : Option WebPage) : (Bool × Option String) × SiteMap :=
  match page with
  | none => ((false, some "SiteMap: Attempt to add empty page or url to site map"), site)
  | some p =>
    match lookupKV p.URL.string site.Pages with
    | some _ => ((false, none), site)
    | none => ((true, none), { site with Pages := site.Pages ++ [(p.URL.string, p)] })

/-- documentparser.go: pick the value of the first attribute whose key is
`href` up to ASCII case (the loop with `strings.EqualFold` and `break`). -/
def findHref : List (String × String) → Option String
  | [] => none
  | (k, v) :: rest => if equalFoldS k "href" then some v else findHref rest

/-- ASCII white space as trimmed by Go `strings.TrimSpace`. -/
def isSpaceChar (c : Char) : Bool :=
  c == ' ' || c == '\t' || c == '\n' || c == '\r' || c == '\x0b' || c == '\x0c'

/-- Go `strings.TrimSpace` (ASCII). -/
def trimSpaceS (s : String) : String :=
  strOf ((((chars s).dropWhile isSpaceChar).reverse.dropWhile isSpaceChar).reverse)

/-- documentparser.go lines 74-77: trim white space, then keep the part
before the first newline. -/
def titleFrom (data : String) : String :=
  let title := trimSpaceS data
  if containsC (chars title) '\n' then strOf (cut3 (chars title) '\n').1 else title

/-- The HTML node tree handed to `parseNode` by the external HTML parser
(`golang.org/x/net/html`): element nodes with tag, attributes and children,
text nodes, and the remaining node types (document, comment, doctype) which
`parseNode` only recurses through. -/
inductive HNode where
  | elem (tag : String) (attrs : List (String × String)) (children : List HNode)
  | text (data : String)
  | misc (children : List HNode)

mutual

/-- documentparser.go `parseNode`: `<a>` elements contribute their first
`href` (errors from `parseURL` propagate); `<title>` elements whose first
child is text overwrite the page title; other nodes are recursed through.
The Go function mutates `page` and returns `error`; the model threads the
page through an `Except`. -/
def parseNode (node : HNode) (parentURL : GoURL) (page : WebPage) : Except String WebPage :=
  match node with
  | .elem tag attrs children =>
    if tag == "a" then
      match findHref attrs with
      | none => .ok page
      | some hrefVal =>
        match parseURL parentURL hrefVal with
        | .error e => .error e
        | .ok res =>
          if res.1 then .ok { page with InternalLinks := linkInsert page.InternalLinks res.2 }
          else .ok page
    else if equalFoldS tag "title" then
      match children with
      | .text d :: _ => .ok { page with Title := titleFrom d }
      | _ => .ok page
    else parseNodes children parentURL page
  | .text _ => .ok page
  | .misc children => parseNodes children parentURL page

/-- The `for child := node.FirstChild; ...` loop of `parseNode`, stopping at
the first error. -/
def parseNodes (nodes : List HNode) (parentURL : GoURL) (page : WebPage) : Except String WebPage :=
  match nodes with
  | [] => .ok page
  | n :: rest =>
    match parseNode n parentURL page with
    | .error e => .error e
    | .ok page2 => parseNodes rest parentURL page2

end

/-- documentparser.go `ParseDocument`, taking the already-parsed HTML tree
(`html.Parse` is an external collaborator; a tree is only available when it
succeeded): parse the document URL, build the page, walk the tree. -/
def ParseDocument (urlStr : String) (rootNode : HNode) : Except String WebPage :=
  match urlParse urlStr with
  | .error e => .error e
  | .ok parentURL => parseNode rootNode parentURL (CreateWebPage parentURL "")

/-- sitemap.go `heightQueueEntry`. -/
structure HeightQueueEntry where
  url : String
  height : Nat
deriving DecidableEq

/-- One iteration of the `for len(queue) != 0` loop of
sitemap.go `getMinimumHeights`: pop the head; skip it when it has no page
record; otherwise write its height into the map (a plain Go map assignment,
overwriting any earlier value — modelled by consing, since `lookupKV`
returns the newest binding) and append the children that are not yet in the
height map.  The order of `InternalLinks` is the map-iteration order of this
run. -/
def bfsStep (site : SiteMap) :
    List HeightQueueEntry × List (String × Nat) → List HeightQueueEntry × List (String × Nat)
  | ([], heights) => ([], heights)
  | (next :: queue, heights) =>
    match lookupKV next.url site.Pages with
    | none => (queue, heights)
    | some page =>
      let heights2 := (next.url, next.height) :: heights
      (queue ++ (page.InternalLinks.filter fun child => (lookupKV child heights2).isNone).map
          (fun child => ⟨child, next.height + 1⟩),
       heights2)

/-- Run the `getMinimumHeights` loop for at most `fuel` iterations.  The Go
loop runs until the queue is empty; every concrete run appearing in a
theorem below visibly reaches an empty queue, and the invariant theorems are
proved for every fuel, so nothing depends on the specific bound. -/
def bfsRun (site : SiteMap) :
    Nat → List HeightQueueEntry × List (String × Nat) → List HeightQueueEntry × List (String × Nat)
  | 0, st => st
  | fuel + 1, st =>
    match st with
    | ([], heights) => ([], heights)
    | st => bfsRun site fuel (bfsStep site st)

/-- An iteration bound that is generous for the examples in this file. -/
def totalLinkCount (site : SiteMap) : Nat :=
  (site.Pages.map fun kv => kv.2.InternalLinks.length).sum

/-- sitemap.go `getMinimumHeights`: the height map left when the BFS queue,
seeded with `(RootPage, 0)`, has drained. -/
def getMinimumHeights (site : SiteMap) : List (String × Nat) :=
  if site.RootPage == "" then []
  else
    (bfsRun site ((site.Pages.length + 1) * (totalLinkCount site + 2) + 1)
      ([⟨site.RootPage, 0⟩], [])).2

/-- Byte-wise lexicographic order on ASCII strings (Go `sort.Strings`). -/
def lexLtC : List Char → List Char → Bool
  | [], [] => false
  | [], _ :: _ => true
  | _ :: _, [] => false
  | a :: as, b :: bs => if a == b then lexLtC as bs else decide (a < b)

def strLtB (a b : String) : Bool := lexLtC (chars a) (chars b)

def insertSorted (x : String) : List String → List String
  | [] => [x]
  | y :: ys => if strLtB x y then x :: y :: ys else y :: insertSorted x ys

/-- Go `sort.Strings` (insertion sort; the input never has duplicates). -/
def sortStrings (l : List String) : List String := l.foldr insertSorted []

/-- The `for _, next := range sorted` loop of `doDepthFirstTraversal`:
recurse into each child with `step`, threading the `expanded` set and
concatenating the emissions. -/
def doDFTChildren (step : List String → String → List String × List (String × Nat)) :
    List String → List String → List String × List (String × Nat)
  | expanded, [] => (expanded, [])
  | expanded, next :: rest =>
    let r := step expanded next
    let r2 := doDFTChildren step r.1 rest
    (r2.1, r.2 ++ r2.2)

/-- sitemap.go `doDepthFirstTraversal`.  The channel becomes the returned
emission list of `(url, height)` pairs (a `MapTraversalNode` is identified
by its page's map key); the mutated `expanded` set (keyed by page pointer in
Go, equivalently by map key here, since each page is stored under one key)
is threaded through and returned.  `fuel` bounds the recursion depth; the
concrete runs below stay far below it. -/
def doDFT (site : SiteMap) (minHeights : List (String × Nat)) :
    Nat → List String → Nat → String → List String × List (String × Nat)
  | 0, expanded, _, _ => (expanded, [])
  | fuel + 1, expanded, height, url =>
    if url == "" then (expanded, [])
    else
      match lookupKV url site.Pages with
      | none => (expanded, [])
      | some page =>
        if (lookupKV url minHeights).getD 0 < height then (expanded, [])
        else if page.InternalLinks.length != 0 && !expanded.contains url then
          let r := doDFTChildren
            (fun exp next => doDFT site minHeights fuel exp (height + 1) next)
            (url :: expanded)
            (sortStrings (page.InternalLinks.filter fun next => next != url))
          (r.1, (url, height) :: r.2)
        else (expanded, [(url, height)])

/-- sitemap.go `TraverseSiteMap`: compute the minimum heights, then emit the
depth-first traversal starting from the root at height 0. -/
def TraverseSiteMap (site : SiteMap) : List (String × Nat) :=
  (doDFT site (getMinimumHeights site) (site.Pages.length + 2) [] 0 site.RootPage).2

/-- Keep the first occurrence of each element. -/
def dedupKeepFirst : List String → List String
  | [] => []
  | x :: xs => x :: (dedupKeepFirst xs).filter fun y => y != x

/-- Modelled from the spec (§4.6 and the glossary), for comparison with the
code: layered breadth-first search computing, for every node, the shortest
number of `internal_links` edges from `root_url` (root at height 0).  Nodes
are URLs; a URL has out-edges only when it has a record in `Pages`. -/
def specBfsRun (site : SiteMap) :
    Nat → List (String × Nat) → List String → Nat → List (String × Nat)
  | 0, visited, _, _ => visited
  | fuel + 1, visited, frontier, h =>
    match frontier with
    | [] => visited
    | _ =>
      let next := dedupKeepFirst
        ((frontier.flatMap fun u =>
            match lookupKV u site.Pages with
            | none => []
            | some p => p.InternalLinks).filter
          fun v => (lookupKV v visited).isNone)
      specBfsRun site fuel (visited ++ next.map fun v => (v, h + 1)) next (h + 1)

/-- Modelled from the spec: `shortest_height(p)`, the shortest-path distance
from `root_url` to `p`, `none` when `p` is unreachable. -/
def shortestHeight (site : SiteMap) (u : String) : Option Nat :=
  lookupKV u
    (specBfsRun site (site.Pages.length + totalLinkCount site + 2)
      [(site.RootPage, 0)] [site.RootPage] 0)

/-- crawler.go `Hyperlink`. -/
structure Hyperlink where
  urlStr : String
  depth : Nat
deriving DecidableEq

/-- The crawler configuration knobs relevant to dedup and the limits
(crawler.go fields `maxPagesToLoad`, `maxCrawlDepth`; both are validated to
be non-negative by main.go, so they are naturals, with 0 meaning
unlimited). -/
structure CrawlCfg where
  maxPagesToLoad : Nat
  maxCrawlDepth : Nat
deriving DecidableEq

/-- The state of the crawl pipeline visible to the claims: the deduper's
`seen` set and admission counter `count`, the in-memory URL queue, the
contents of the three data channels, and the site map.  `pushed` is a ghost
history variable recording, in order, every URL ever admitted to (pushed
onto) the work queue. -/
structure CrawlState where
  seen : List String
  count : Nat
  queue : List Hyperlink
  loadCh : List Hyperlink
  linksCh : List Hyperlink
  pagesCh : List WebPage
  siteMap : SiteMap
  pushed : List String
deriving DecidableEq

/-- crawler.go `enqueueNewUrls`, body of the `for link := range linksChan`
loop for a single link (the `pendingItemsChan` posts carry no state visible
to these claims and are omitted):

1. a URL already in `seen` is discarded;
2. with `maxPagesToLoad > 0` and `count ≥ maxPagesToLoad`, the URL is added
   to `seen` and discarded;
3. with `maxCrawlDepth > 0` and `depth > maxCrawlDepth`, the URL is added to
   `seen` and discarded;
4. otherwise it is added to `seen`, `count` is incremented, and the link is
   pushed onto the queue. -/
def dedupStep (cfg : CrawlCfg) (s : CrawlState) (link : Hyperlink) : CrawlState :=
  if link.urlStr ∈ s.seen then s
  else if cfg.maxPagesToLoad > 0 && s.count ≥ cfg.maxPagesToLoad then
    { s with seen := link.urlStr :: s.seen }
  else if cfg.maxCrawlDepth > 0 && link.depth > cfg.maxCrawlDepth then
    { s with seen := link.urlStr :: s.seen }
  else
    { s with seen := link.urlStr :: s.seen,
             count := s.count + 1,
             queue := s.queue ++ [link],
             pushed := s.pushed ++ [link.urlStr] }

/-- One step of the crawl pipeline, as an interleaving of the five stages of
crawler.go (any number of loaders):

* `dedup`: `enqueueNewUrls` consumes the head of `linksChan`;
* `dispatch`: `dequeueUrls` moves the queue head onto `urlLoadChan`;
* `loadOk`: a loader in `loadPages` consumes a link and produces a page —
  the loaded content is arbitrary (`page`, with its extracted links), which
  covers any remote site, including unbounded link graphs; each extracted
  link re-enters `linksChan` and the page goes to `pagesChan`;
* `loadFail`: a loader consumes a link and produces nothing;
* `ingest`: `populateSiteMap` consumes the head of `pagesChan` and calls
  `AddPage` (errors are only logged). -/
inductive CrawlStep (cfg : CrawlCfg) : CrawlState → CrawlState → Prop
  | dedup (s : CrawlState) (link : Hyperlink) (rest : List Hyperlink)
      (h : s.linksCh = link :: rest) :
      CrawlStep cfg s (dedupStep cfg { s with linksCh := rest } link)
  | dispatch (s : CrawlState) (link : Hyperlink) (rest : List Hyperlink)
      (h : s.queue = link :: rest) :
      CrawlStep cfg s { s with queue := rest, loadCh := s.loadCh ++ [link] }
  | loadOk (s : CrawlState) (link : Hyperlink) (rest : List Hyperlink) (page : WebPage)
      (h : s.loadCh = link :: rest) :
      CrawlStep cfg s
        { s with loadCh := rest,
                 linksCh := s.linksCh ++ page.InternalLinks.map fun u => ⟨u, link.depth + 1⟩,
                 pagesCh := s.pagesCh ++ [page] }
  | loadFail (s : CrawlState) (link : Hyperlink) (rest : List Hyperlink)
      (h : s.loadCh = link :: rest) :
      CrawlStep cfg s { s with loadCh := rest }
  | ingest (s : CrawlState) (page : WebPage) (rest : List WebPage)
      (h : s.pagesCh = page :: rest) :
      CrawlStep cfg s { s with pagesCh := rest, siteMap := (AddPage s.siteMap (some page)).2 }

/-- The initial pipeline state (crawler.go `crawl`): all channels empty
except the seed hyperlink `(startURL.String(), 1)` written to `linksChan`,
an empty site map, deduper state fresh. -/
def initCrawlState (site0 : SiteMap) (seedUrl : String) : CrawlState :=
  { seen := [], count := 0, queue := [], loadCh := [],
    linksCh := [⟨seedUrl, 1⟩], pagesCh := [], siteMap := site0, pushed := [] }

/-- States reachable by the pipeline from the initial state. -/
def CrawlReachable (cfg : CrawlCfg) (site0 : SiteMap) (seedUrl : String)
    (s : CrawlState) : Prop :=
  Relation.ReflTransGen (CrawlStep cfg) (initCrawlState site0 seedUrl) s

mutual

/-- The titles stored by `parseNode`, in storing order: one entry per
`<title>` element (up to case) whose first child is a text node, already
trimmed and cut at the first newline; subtrees of `<a>` and `<title>`
elements are not walked, mirroring the early returns of `parseNode`. -/
def collectTitles (node : HNode) : List String :=
  match node with
  | .elem tag _ children =>
    if tag == "a" then []
    else if equalFoldS tag "title" then
      match children with
      | .text d :: _ => [titleFrom d]
      | _ => []
    else collectTitlesList children
  | .text _ => []
  | .misc children => collectTitlesList children

def collectTitlesList (nodes : List HNode) : List String :=
  match nodes with
  | [] => []
  | n :: rest => collectTitles n ++ collectTitlesList rest

end

/-- Whether a Go `(value, err)` result modelled as `Except` carries a
non-nil error. -/
def isErrE {α : Type} : Except String α → Bool
  | .error _ => true
  | .ok _ => false

/-- A URL is reachable from the site's root along `internal_links` edges
(only URLs with a page record have out-edges). -/
inductive ReachableFromRoot (site : SiteMap) : String → Prop
  | root : ReachableFromRoot site site.RootPage
  | step (u : String) (page : WebPage) (v : String) :
      ReachableFromRoot site u → lookupKV u site.Pages = some page →
      v ∈ page.InternalLinks → ReachableFromRoot site v

/-- Deduper invariant for claim C3: the history of queue admissions has no
duplicates, and every admitted URL is in the seen set. -/
def DedupInv (s : CrawlState) : Prop :=
  s.pushed.Nodup ∧ ∀ u ∈ s.pushed, u ∈ s.seen

/-- Page-limit invariant for claim C4: when a positive limit is set, the
admission counter stays below it, and the pages stored plus all
page-producing work still in flight are bounded by the counter. -/
def PageLimitInv (cfg : CrawlCfg) (s : CrawlState) : Prop :=
  (0 < cfg.maxPagesToLoad → s.count ≤ cfg.maxPagesToLoad)
  ∧ s.siteMap.Pages.length + s.pagesCh.length + s.loadCh.length + s.queue.length ≤ s.count

/-- Two `SiteMap` values denote the same Go site-map state: same domain,
root and page keys, and pointwise equal pages up to the (unordered) set of
internal links — `InternalLinks` lists that are permutations of each other
are two iteration orders of one Go map. -/
def sameSiteMapStateB (s1 s2 : SiteMap) : Bool :=
  s1.Domain == s2.Domain && s1.RootPage == s2.RootPage
    && s1.Pages.map Prod.fst == s2.Pages.map Prod.fst
    && (s1.Pages.map Prod.fst).all fun k =>
      match lookupKV k s1.Pages, lookupKV k s2.Pages with
      | some p, some q =>
        p.URL == q.URL && p.Title == q.Title && decide (p.InternalLinks.Perm q.InternalLinks)
      | _, _ => false

/-- A page of the concrete example site maps below (the `URL` field is not
consulted by the traversal, which works on the map keys). -/
def mkPage (title : String) (links : List String) : WebPage :=
  { URL := ⟨"http", "", "s", "", "", ""⟩, Title := title, InternalLinks := links }

/-- Concrete site map for claim C1: `http://s` links to `/a` and `/b`;
`/a` and `/b` link to each other (a 2-cycle below the root). -/
def c1Site : SiteMap :=
  { Domain := "s", RootPage := "http://s",
    Pages := [("http://s", mkPage "r" ["http://s/a", "http://s/b"]),
              ("http://s/a", mkPage "a" ["http://s/b"]),
              ("http://s/b", mkPage "b" ["http://s/a"])] }

/-- Concrete site map for claim C8, first map-iteration order of the root's
links. -/
def c8SiteA : SiteMap :=
  { Domain := "s", RootPage := "http://s",
    Pages := [("http://s", mkPage "r" ["http://s/a", "http://s/x"]),
              ("http://s/a", mkPage "a" ["http://s/x"]),
              ("http://s/x", mkPage "x" [])] }

/-- The same site-map state as `c8SiteA`, second map-iteration order of the
root's links. -/
def c8SiteB : SiteMap :=
  { Domain := "s", RootPage := "http://s",
    Pages := [("http://s", mkPage "r" ["http://s/x", "http://s/a"]),
              ("http://s/a", mkPage "a" ["http://s/x"]),
              ("http://s/x", mkPage "x" [])] }

/-- Concrete site map for claim C7: the root links to `http://s/d`, which
has no page record (a dangling child). -/
def c7Site : SiteMap :=
  { Domain := "s", RootPage := "http://s",
    Pages := [("http://s", mkPage "r" ["http://s/d"])] }

/-- An empty site map for the `AddPage` claims. -/
def c6Site : SiteMap := { Domain := "example.com", RootPage := "http://example.com", Pages := [] }

/-- A non-nil page whose URL serializes to the empty string. -/
def emptyUrlPage : WebPage := { URL := ⟨"", "", "", "", "", ""⟩, Title := "t", InternalLinks := [] }

/-- The parent URL `http://example.com/path` used by claims C2 and C9. -/
def exParent : GoURL := ⟨"http", "", "example.com", "/path", "", ""⟩

/-- An href containing a control byte, which Go's `url.Parse` rejects. -/
def c2Href : String := "bad\x01link"

/-- A document whose only `<a>` carries the malformed href `c2Href`. -/
def c2Doc : HNode :=
  .misc [.elem "html" [] [.elem "body" [] [.elem "a" [("href", c2Href)] [.text "link"]]]]

/-- A document with two `<title>` elements: `First` then `Second`. -/
def twoTitleDoc : HNode :=
  .misc [.elem "html" [] [.elem "head" []
    [.elem "title" [] [.text "First"], .elem "title" [] [.text "Second"]]]]

/-- A single-title document for the witness of the amended claim C5. -/
def oneTitleDoc : HNode :=
  .misc [.elem "html" [] [.elem "head" [] [.elem "title" [] [.text "\n  Real Title\n  extra\n"]],
    .elem "body" [] [.text "hi"]]]

/-- A store making every `*url.URL` point at a URL whose path ends in `//`. -/
def c10Store : Nat → GoURL := fun _ => ⟨"http", "", "example.com", "//", "", ""⟩

/-- A store for the witness of the amended claim C10. -/
def c10WStore : Nat → GoURL := fun _ => ⟨"http", "", "example.com", "/a/", "", ""⟩

/-- The page extracted from `oneTitleDoc` at `http://example.com/x`. -/
def c5WPage : WebPage := ⟨⟨"http", "", "example.com", "/x", "", ""⟩, "Real Title", []⟩

/-- BFS invariant for claim C7: every queued URL is reachable from the root,
and every URL recorded in the height map has a page record and is reachable
from the root. -/
def BfsInv (site : SiteMap) (st : List HeightQueueEntry × List (String × Nat)) : Prop :=
  (∀ e ∈ st.1, ReachableFromRoot site e.url)
  ∧ ∀ u hgt, lookupKV u st.2 = some hgt →
      (lookupKV u site.Pages).isSome = true ∧ ReachableFromRoot site u
/-- The last element of a list, or `d` when it is empty (used to state the
"last `<title>` wins" behaviour). -/
def lastOr {α : Type} : List α → α → α
  | [], d => d
  | x :: rest, _ => lastOr rest x

theorem strOf_chars (s : String) : strOf (chars s) = s := by
  cases s
  rfl

theorem chars_strOf (l : List Char) : chars (strOf l) = l := rfl

theorem chars_inj {s t : String} (h : chars s = chars t) : s = t := by
  cases s
  cases t
  exact congrArg String.mk h


theorem e1Parent_parses : urlParse "http://en.wikipedia.com/path" = .ok e1Parent := by decide

theorem e1_row1 : parseURL e1Parent "http://en.wikipedia.com" = .ok (true, "http://en.wikipedia.com") := by decide

theorem e1_row2 : parseURL e1Parent "http://en.wikipedia.com/" = .ok (true, "http://en.wikipedia.com") := by decide

theorem e1_row3 : parseURL e1Parent "en.wikipedia.com/path/2/" = .ok (true, "http://en.wikipedia.com/path/2") := by decide

theorem e1_row4 : parseURL e1Parent "ftp://en.wikipedia.com/doc" = .ok (false, "") := by decide

theorem e1_row5 : parseURL e1Parent "http://other.org/x" = .ok (false, "") := by decide

theorem e1_row6 : parseURL e1Parent "en.wikipedia.com/path" = .ok (false, "") := by decide


/-- C1: the claim states that every `(p, d)` tuple emitted by the traversal
satisfies `d = shortest_height(p)`.  The code violates it: on `c1Site`
(root linking to `a` and `b`, which link to each other), `getMinimumHeights`
enqueues `b` a second time (from `a`) before `b` is first popped and then
overwrites `heights[b]` with the larger value 2, so the traversal emits
`("http://s/b", 2)` although the shortest height of `b` is 1 — and this
emission rides the edge `a → b` to a page of smaller height, which the
claim says is silenced.  This contradicts `getMinimumHeights`'s own doc
comment ("the minimum number of steps from the sites root to a page along
any path"), so the claim is right and the code is wrong. -/
theorem c1_heights_code_bug :
    TraverseSiteMap c1Site
      = [("http://s", 0), ("http://s/a", 1), ("http://s/b", 2), ("http://s/b", 1)]
    ∧ shortestHeight c1Site "http://s/b" = some 1
    ∧ ("http://s/b", 2) ∈ TraverseSiteMap c1Site := by decide

/-- C8: the claim states that two runs of the traversal on the same
site-map state emit identical sequences.  `c8SiteA` and `c8SiteB` are the
same site-map state (same pages, same `internal_links` sets — the lists are
permutations, i.e. two map-iteration orders), yet the emissions differ,
because the height-overwriting bug of `getMinimumHeights` (claim C1) makes
the computed heights depend on the map-iteration order.  The code intends
the emission to be deterministic (it sorts the children lexicographically
for exactly that purpose, and deterministic minimum heights would make the
whole traversal deterministic), so the claim is right and the code is
wrong. -/
theorem c8_determinism_code_bug :
    sameSiteMapStateB c8SiteA c8SiteB = true
    ∧ TraverseSiteMap c8SiteA ≠ TraverseSiteMap c8SiteB
    ∧ TraverseSiteMap c8SiteA
        = [("http://s", 0), ("http://s/a", 1), ("http://s/x", 2), ("http://s/x", 1)]
    ∧ TraverseSiteMap c8SiteB
        = [("http://s", 0), ("http://s/a", 1), ("http://s/x", 1)] := by decide

/-- C2: the claim states that when parsing the href candidate fails the
normalizer reports not-internal with no error and extraction never fails on
a malformed href.  The code violates it: `parseURL` returns the `url.Parse`
error (documentparser.go line 116) and `parseNode` propagates it, so
`ParseDocument` fails on a document whose `<a>` has the malformed href
`"bad\x01link"` (Go's `url.Parse` rejects the control byte).  This
contradicts `parseURL`'s own doc comment ("note invalid href string is not
considered an error"), so the claim is right and the code is wrong.  The
parent is absolute, so by the claim `err` should have been nil. -/
theorem c2_href_error_code_bug :
    isErrE (parseURL exParent c2Href) = true
    ∧ isErrE (ParseDocument "http://example.com/path" c2Doc) = true
    ∧ exParent.isAbs = true := by decide

/-- C6 counterexample: the claim states `add_page` returns an error when
the page has an empty URL; the code only checks for a nil page, so a
non-nil page whose URL serializes to `""` is inserted under the empty key
with result `(true, nil)` — no error. -/
theorem c6_counterexample :
    (AddPage c6Site (some emptyUrlPage)).1 = (true, none)
    ∧ (AddPage c6Site (some emptyUrlPage)).2.Pages = [("", emptyUrlPage)]
    ∧ emptyUrlPage.URL.string = "" := by decide

/-- C6 (amended): `add_page(p)` returns an error iff `p` is nil (a page
with an empty URL is admitted like any other, keyed by the empty string);
it returns `(false, nil)` and leaves the map unchanged when a page with the
same canonical URL is present; otherwise it appends `p` under its URL key
and returns `(true, nil)`. -/
theorem addPage_spec (site : SiteMap) (p : WebPage) :
    ((AddPage site none).1.1 = false ∧ (AddPage site none).1.2.isSome = true
      ∧ (AddPage site none).2 = site)
    ∧ ((lookupKV p.URL.string site.Pages).isSome = true →
        AddPage site (some p) = ((false, none), site))
    ∧ (lookupKV p.URL.string site.Pages = none →
        (AddPage site (some p)).1 = (true, none)
        ∧ (AddPage site (some p)).2.Pages = site.Pages ++ [(p.URL.string, p)]) := by
  refine ⟨⟨rfl, rfl, rfl⟩, ?_, ?_⟩
  · intro hf
    obtain ⟨q, hq⟩ := Option.isSome_iff_exists.mp hf
    simp [AddPage, hq]
  · intro hn
    simp [AddPage, hn]

/-- Witness for `addPage_spec` at a fresh page on the empty site map. -/
theorem addPage_spec_witness :
    (AddPage c6Site (some (mkPage "w" []))).1 = (true, none)
    ∧ (AddPage c6Site (some (mkPage "w" []))).2.Pages
        = c6Site.Pages ++ [((mkPage "w" []).URL.string, mkPage "w" [])] :=
  (addPage_spec c6Site (mkPage "w" [])).2.2 (by decide)

/-- C10 counterexample: the claim states that a constructed page's URL path
never ends in `/`; `TrimSuffix` removes a single `/`, so a path `//` leaves
`/`, which still ends in `/` — both in the mutated caller URL and in the
constructed page. -/
theorem c10_counterexample :
    ((CreateWebPageH c10Store 0 "t").1 0).path = "/"
    ∧ hasSufS ((CreateWebPageH c10Store 0 "t").1 0).path "/" = true
    ∧ (CreateWebPage (c10Store 0) "t").URL.path = "/"
    ∧ hasSufS (CreateWebPage (c10Store 0) "t").URL.path "/" = true := by decide

/-- One `TrimSuffix` of `/` leaves a trailing `/` exactly when the original
ended in `//`. -/
theorem hasSuf_trimSuf_slash (s : String) :
    hasSufS (trimSufS s "/") "/" = hasSufS s "//" := by
  have h1 : chars "/" = ['/'] := rfl
  have h2 : chars "//" = ['/', '/'] := rfl
  rcases hrs : (chars s).reverse with _ | ⟨c, rest⟩
  · simp [trimSufS, hasSufS, hrs, isPreC, h1, h2]
  · by_cases hc : c = '/'
    · subst hc
      simp [trimSufS, hasSufS, hrs, isPreC, h1, h2, chars_strOf]
    · have hcb : ('/' == c) = false := beq_eq_false_iff_ne.mpr fun h => hc h.symm
      simp [trimSufS, hasSufS, hrs, isPreC, h1, h2, hcb]

/-- C10 (amended): `CreateWebPage` mutates the `url.URL` the caller passed
in: through the shared pointer it strips at most one trailing `/` from the
path in place (heap cells other than the argument are untouched, and the
page's URL field aliases the caller's pointer), so the caller's URL object
holds the trimmed path afterwards; the resulting path still ends in `/`
exactly when the original path ended in `//`. -/
theorem createWebPageH_spec (store : Nat → GoURL) (ptr : Nat) (title : String) :
    (CreateWebPageH store ptr title).2.1 = ptr
    ∧ (CreateWebPageH store ptr title).1 ptr
        = { store ptr with path := trimSufS (store ptr).path "/" }
    ∧ (∀ q, q ≠ ptr → (CreateWebPageH store ptr title).1 q = store q)
    ∧ hasSufS ((CreateWebPageH store ptr title).1 ptr).path "/"
        = hasSufS (store ptr).path "//" := by
  refine ⟨rfl, by simp [CreateWebPageH], fun q hq => by simp [CreateWebPageH, hq], ?_⟩
  simp [CreateWebPageH, hasSuf_trimSuf_slash]

/-- Witness for `createWebPageH_spec`: frame at another pointer and the
surviving-slash characterization at the argument. -/
theorem createWebPageH_spec_witness :
    (CreateWebPageH c10WStore 3 "t").1 5 = c10WStore 5
    ∧ hasSufS ((CreateWebPageH c10WStore 3 "t").1 3).path "/"
        = hasSufS (c10WStore 3).path "//" :=
  ⟨(createWebPageH_spec c10WStore 3 "t").2.2.1 5 (by decide),
   (createWebPageH_spec c10WStore 3 "t").2.2.2⟩

/-- One `getMinimumHeights` iteration preserves the BFS invariant. -/
theorem bfsStep_inv (site : SiteMap) (st : List HeightQueueEntry × List (String × Nat))
    (h : BfsInv site st) : BfsInv site (bfsStep site st) := by
  obtain ⟨hq, hh⟩ := h
  rcases st with ⟨queue, heights⟩
  cases queue with
  | nil => exact ⟨hq, hh⟩
  | cons next rest =>
    simp only [bfsStep]
    cases hp : lookupKV next.url site.Pages with
    | none => exact ⟨fun e he => hq e (List.mem_cons_of_mem _ he), hh⟩
    | some page =>
      constructor
      · intro e he
        rcases List.mem_append.mp he with h1 | h2
        · exact hq e (List.mem_cons_of_mem _ h1)
        · obtain ⟨child, hchild, rfl⟩ := List.mem_map.mp h2
          exact ReachableFromRoot.step next.url page child
            (hq next (List.mem_cons_self _ _)) hp (List.mem_filter.mp hchild).1
      · intro u hgt hl
        simp only [lookupKV] at hl
        split at hl
        · rename_i heq
          have : u = next.url := by simpa using heq
          subst this
          exact ⟨by simp [hp], hq next (List.mem_cons_self _ _)⟩
        · exact hh u hgt hl

/-- Any number of `getMinimumHeights` iterations preserves the invariant. -/
theorem bfsRun_inv (site : SiteMap) (fuel : Nat)
    (st : List HeightQueueEntry × List (String × Nat)) (h : BfsInv site st) :
    BfsInv site (bfsRun site fuel st) := by
  induction fuel generalizing st with
  | zero => simpa [bfsRun] using h
  | succ n ih =>
    rcases st with ⟨queue, heights⟩
    cases queue with
    | nil => simpa [bfsRun] using h
    | cons a b =>
      simp only [bfsRun]
      exact ih _ (bfsStep_inv site _ h)

/-- C7 (amended): dangling children are never recorded in the height map —
`getMinimumHeights` skips a popped URL that has no page record before
writing its height — so every key of the height map has a record in
`pages` and is reachable from `root_url`; in particular, every page
unreachable from `root_url` is omitted, as the claim states. -/
theorem getMinimumHeights_keys (site : SiteMap) (u : String) (hgt : Nat)
    (h : lookupKV u (getMinimumHeights site) = some hgt) :
    (lookupKV u site.Pages).isSome = true ∧ ReachableFromRoot site u := by
  unfold getMinimumHeights at h
  split at h
  · simp [lookupKV] at h
  · have hinv : BfsInv site ([⟨site.RootPage, 0⟩], []) := by
      constructor
      · intro e he
        simp at he
        subst he
        exact ReachableFromRoot.root
      · intro u2 h2 hl
        simp [lookupKV] at hl
    exact (bfsRun_inv site _ _ hinv).2 u hgt h

/-- C7 counterexample: the claim states that a dangling child (here
`http://s/d`, listed in the root page's `internal_links` but absent from
`pages`) is still recorded in the height map at the height BFS reaches it
(here 1); the code records nothing for it — the height map of `c7Site` is
exactly `[("http://s", 0)]`. -/
theorem c7_counterexample :
    "http://s/d" ∈ (mkPage "r" ["http://s/d"]).InternalLinks
    ∧ lookupKV "http://s/d" c7Site.Pages = none
    ∧ lookupKV "http://s/d" (getMinimumHeights c7Site) = none
    ∧ getMinimumHeights c7Site = [("http://s", 0)] := by decide

/-- Witness for `getMinimumHeights_keys` at the root entry of `c7Site`. -/
theorem getMinimumHeights_keys_witness :
    (lookupKV "http://s" c7Site.Pages).isSome = true ∧ ReachableFromRoot c7Site "http://s" :=
  getMinimumHeights_keys c7Site "http://s" 0 (by decide)

/-- The deduper's one-link step preserves the dedup invariant. -/
theorem dedupStep_inv (cfg : CrawlCfg) (s : CrawlState) (link : Hyperlink)
    (h : DedupInv s) : DedupInv (dedupStep cfg s link) := by
  obtain ⟨hn, hsub⟩ := h
  unfold dedupStep
  split
  · exact ⟨hn, hsub⟩
  · rename_i hseen
    split
    · exact ⟨hn, fun u hu => List.mem_cons_of_mem _ (hsub u hu)⟩
    · split
      · exact ⟨hn, fun u hu => List.mem_cons_of_mem _ (hsub u hu)⟩
      · constructor
        · refine List.nodup_append.mpr ⟨hn, List.nodup_singleton _, ?_⟩
          intro u hu hu2
          simp at hu2
          subst hu2
          exact hseen (hsub _ hu)
        · intro u hu
          rcases List.mem_append.mp hu with h1 | h2
          · exact List.mem_cons_of_mem _ (hsub u h1)
          · simp at h2
            subst h2
            exact List.mem_cons_self _ _

/-- Every pipeline step preserves the dedup invariant (only the dedup stage
touches `seen` and `pushed`). -/
theorem crawlStep_dedupInv (cfg : CrawlCfg) (s s' : CrawlState)
    (hs : CrawlStep cfg s s') (h : DedupInv s) : DedupInv s' := by
  cases hs with
  | dedup link rest hl => exact dedupStep_inv cfg _ link h
  | dispatch link rest hl => exact h
  | loadOk link rest page hl => exact h
  | loadFail link rest hl => exact h
  | ingest page rest hl => exact h

/-- The dedup invariant holds in every reachable pipeline state. -/
theorem crawlReachable_dedupInv (cfg : CrawlCfg) (site0 : SiteMap) (seedUrl : String)
    (s : CrawlState) (h : CrawlReachable cfg site0 seedUrl s) : DedupInv s := by
  induction h with
  | refl => exact ⟨List.nodup_nil, by simp [initCrawlState]⟩
  | tail h1 hstep ih => exact crawlStep_dedupInv cfg _ _ hstep ih

/-- C3: in any run of the crawl engine no canonical URL is admitted to the
work queue more than once — the admission history of every reachable state
has no duplicates; moreover the deduper records every URL it decides about
in `seen` (whatever the outcome), and a URL already in `seen` is always
discarded, leaving the deduper state unchanged. -/
theorem dedup_no_readmission (cfg : CrawlCfg) (site0 : SiteMap) (seedUrl : String) :
    (∀ s link, link.urlStr ∈ (dedupStep cfg s link).seen
      ∧ (link.urlStr ∈ s.seen → dedupStep cfg s link = s))
    ∧ ∀ s, CrawlReachable cfg site0 seedUrl s → s.pushed.Nodup := by
  refine ⟨fun s link => ⟨?_, fun hm => by simp [dedupStep, hm]⟩,
    fun s hr => (crawlReachable_dedupInv cfg site0 seedUrl s hr).1⟩
  unfold dedupStep
  split
  · assumption
  · split
    · exact List.mem_cons_self _ _
    · split
      · exact List.mem_cons_self _ _
      · exact List.mem_cons_self _ _

/-- Witness for `dedup_no_readmission`: after the seed link is processed by
the deduper, the admission history is duplicate-free, and the deduper
records a decided URL in `seen`. -/
theorem dedup_no_readmission_witness :
    (dedupStep ⟨0, 0⟩ { initCrawlState c6Site "http://seed" with linksCh := [] }
        ⟨"http://seed", 1⟩).pushed.Nodup
    ∧ "u" ∈ (dedupStep ⟨0, 0⟩ (initCrawlState c6Site "s") ⟨"u", 1⟩).seen :=
  ⟨(dedup_no_readmission ⟨0, 0⟩ c6Site "http://seed").2 _
      (Relation.ReflTransGen.single (CrawlStep.dedup _ ⟨"http://seed", 1⟩ [] rfl)),
   ((dedup_no_readmission ⟨0, 0⟩ c6Site "s").1 _ _).1⟩

/-- `AddPage` grows the page map by at most one entry. -/
theorem addPage_length (site : SiteMap) (p : Option WebPage) :
    (AddPage site p).2.Pages.length ≤ site.Pages.length + 1 := by
  cases p with
  | none => simp [AddPage]
  | some q =>
    cases hl : lookupKV q.URL.string site.Pages with
    | some r => simp [AddPage, hl]
    | none => simp [AddPage, hl]

/-- Every pipeline step preserves the page-limit invariant. -/
theorem crawlStep_pageLimitInv (cfg : CrawlCfg) (s s' : CrawlState)
    (hs : CrawlStep cfg s s') (h : PageLimitInv cfg s) : PageLimitInv cfg s' := by
  obtain ⟨hc, hb⟩ := h
  cases hs with
  | dedup link rest hl =>
    unfold dedupStep
    split
    · exact ⟨hc, hb⟩
    · split
      · exact ⟨hc, hb⟩
      · split
        · exact ⟨hc, hb⟩
        · rename_i hseen hlimit hdepth
          simp only [Bool.and_eq_true, decide_eq_true_eq, not_and, not_le] at hlimit
          unfold PageLimitInv
          dsimp only
          simp only [List.length_append, List.length_cons, List.length_nil]
          constructor
          · intro hpos
            have hlt := hlimit (by simpa using hpos)
            omega
          · omega
  | dispatch link rest hl =>
    have h2 := congrArg List.length hl
    simp only [List.length_cons] at h2
    unfold PageLimitInv
    dsimp only
    simp only [List.length_append, List.length_cons, List.length_nil]
    exact ⟨hc, by omega⟩
  | loadOk link rest page hl =>
    have h2 := congrArg List.length hl
    simp only [List.length_cons] at h2
    unfold PageLimitInv
    dsimp only
    simp only [List.length_append, List.length_cons, List.length_nil]
    exact ⟨hc, by omega⟩
  | loadFail link rest hl =>
    have h2 := congrArg List.length hl
    simp only [List.length_cons] at h2
    unfold PageLimitInv
    dsimp only
    exact ⟨hc, by omega⟩
  | ingest page rest hl =>
    have h2 := congrArg List.length hl
    simp only [List.length_cons] at h2
    have h3 := addPage_length s.siteMap (some page)
    unfold PageLimitInv
    dsimp only
    exact ⟨hc, by omega⟩

/-- C4: with `max_pages_to_load = N > 0`, every reachable pipeline state —
during the crawl and at termination, for an arbitrary remote link graph,
unbounded ones included — has at most `N` entries in the site map's
`pages`. -/
theorem pageLimit_holds (cfg : CrawlCfg) (start : GoURL) (seedUrl : String) (s : CrawlState)
    (hr : CrawlReachable cfg (CreateSiteMap start) seedUrl s)
    (hN : 0 < cfg.maxPagesToLoad) :
    s.siteMap.Pages.length ≤ cfg.maxPagesToLoad := by
  have hinv : PageLimitInv cfg s := by
    induction hr with
    | refl => exact ⟨fun _ => Nat.zero_le _, by simp [initCrawlState, CreateSiteMap]⟩
    | tail h1 hstep ih => exact crawlStep_pageLimitInv cfg _ _ hstep ih
  have h1 := hinv.1 hN
  have h2 := hinv.2
  omega

/-- Witness for `pageLimit_holds` with limit 3 at the initial state. -/
theorem pageLimit_holds_witness :
    (initCrawlState (CreateSiteMap exParent) "http://example.com/path").siteMap.Pages.length ≤ 3 :=
  pageLimit_holds ⟨3, 0⟩ exParent "http://example.com/path" _
    Relation.ReflTransGen.refl (by decide)


/-- `lastOr` over a concatenation chains the defaults. -/
theorem lastOr_append {α : Type} (a b : List α) (d : α) :
    lastOr (a ++ b) d = lastOr b (lastOr a d) := by
  induction a generalizing d with
  | nil => rfl
  | cons x a ih => simp [lastOr, ih]

mutual

/-- `parseNode` leaves the title of the threaded page at the last stored
title of the subtree (or its incoming value when the subtree stores none). -/
theorem parseNode_title (node : HNode) (parentURL : GoURL) (page page2 : WebPage)
    (h : parseNode node parentURL page = .ok page2) :
    page2.Title = lastOr (collectTitles node) page.Title := by
  cases node with
  | text d =>
    simp only [parseNode] at h
    cases h
    rfl
  | misc children =>
    simp only [parseNode] at h
    simpa [collectTitles] using parseNodesTitle children parentURL page page2 h
  | elem tag attrs children =>
    simp only [parseNode] at h
    by_cases ha : (tag == "a") = true
    · rw [if_pos ha] at h
      have hout : page2.Title = page.Title := by
        cases hf : findHref attrs with
        | none => rw [hf] at h; dsimp only at h; cases h; rfl
        | some hrefVal =>
          rw [hf] at h
          dsimp only at h
          cases hp : parseURL parentURL hrefVal with
          | error e => rw [hp] at h; dsimp only at h; cases h
          | ok res =>
            rw [hp] at h
            dsimp only at h
            by_cases hi : res.1 = true
            · rw [if_pos hi] at h; cases h; rfl
            · rw [if_neg hi] at h; cases h; rfl
      simp [collectTitles, ha, hout, lastOr]
    · rw [if_neg ha] at h
      by_cases ht : (equalFoldS tag "title") = true
      · rw [if_pos ht] at h
        cases children with
        | nil =>
          cases h
          simp [collectTitles, ha, ht, lastOr]
        | cons c rest =>
          cases c with
          | text d =>
            cases h
            simp [collectTitles, ha, ht, lastOr]
          | elem t2 a2 c2 =>
            cases h
            simp [collectTitles, ha, ht, lastOr]
          | misc c2 =>
            cases h
            simp [collectTitles, ha, ht, lastOr]
      · rw [if_neg ht] at h
        have := parseNodesTitle children parentURL page page2 h
        simpa [collectTitles, ha, ht] using this

/-- List version of `parseNode_title` for the child loop. -/
theorem parseNodesTitle (nodes : List HNode) (parentURL : GoURL) (page page2 : WebPage)
    (h : parseNodes nodes parentURL page = .ok page2) :
    page2.Title = lastOr (collectTitlesList nodes) page.Title := by
  cases nodes with
  | nil =>
    simp only [parseNodes] at h
    cases h
    rfl
  | cons n rest =>
    simp only [parseNodes] at h
    cases hm : parseNode n parentURL page with
    | error e => rw [hm] at h; dsimp only at h; cases h
    | ok pageM =>
      rw [hm] at h
      dsimp only at h
      have h1 := parseNode_title n parentURL page pageM hm
      have h2 := parseNodesTitle rest parentURL pageM page2 h
      simp [collectTitlesList, lastOr_append, h2, h1]

end

/-- C5 counterexample: the claim states the title comes from the first
`<title>` element and subsequent ones are ignored; on a document with
`<title>First</title>` followed by `<title>Second</title>` the code stores
`"Second"` — each later `<title>` with a text first child overwrites the
stored title. -/
theorem c5_counterexample :
    (ParseDocument "http://example.com/x" twoTitleDoc).map (fun p => p.Title)
      = .ok "Second" := by decide

/-- C5 (amended): the extracted title is taken from the last `<title>`
element, in document order, whose first child is a text node — that text
whitespace-trimmed and truncated before the first newline — because each
such element overwrites the stored title; when there is none, the title is
the empty string.  (Subtrees of `<a>` and `<title>` elements are not
scanned, mirroring `parseNode`'s early returns.) -/
theorem parseDocument_title_lastTitle (urlStr : String) (root : HNode) (p : WebPage)
    (h : ParseDocument urlStr root = .ok p) :
    p.Title = lastOr (collectTitles root) "" := by
  unfold ParseDocument at h
  cases hu : urlParse urlStr with
  | error e => rw [hu] at h; cases h
  | ok parent =>
    rw [hu] at h
    dsimp only at h
    have := parseNode_title root parent (CreateWebPage parent "") p h
    simpa [CreateWebPage] using this

/-- Witness for `parseDocument_title_lastTitle` on a one-title document
(the E3 multi-line title). -/
theorem parseDocument_title_lastTitle_witness :
    c5WPage.Title = lastOr (collectTitles oneTitleDoc) "" :=
  parseDocument_title_lastTitle "http://example.com/x" oneTitleDoc c5WPage (by decide)

/-- C9 counterexample: the claim states canonicalization is idempotent for
every href the normalizer accepts.  `TrimSuffix` strips one `/` per pass,
so the href `http://example.com/p//` canonicalizes to
`http://example.com/p/`, which the next pass maps to `http://example.com/p`
— a different canonical URL. -/
theorem c9_counterexample :
    parseURL exParent "http://example.com/p//" = .ok (true, "http://example.com/p/")
    ∧ parseURL exParent "http://example.com/p/" = .ok (true, "http://example.com/p")
    ∧ ("http://example.com/p" : String) ≠ "http://example.com/p/" := by decide

/-- A cut at a separator that does not occur returns the input whole. -/
theorem cut3_not_mem {l : List Char} {sep : Char} (h : sep ∉ l) :
    cut3 l sep = (l, [], false) := by
  induction l with
  | nil => rfl
  | cons c cs ih =>
    have hc : (c == sep) = false := by
      simp only [beq_eq_false_iff_ne]
      exact fun he => h (he ▸ List.mem_cons_self c cs)
    simp [cut3, hc, ih fun hm => h (List.mem_cons_of_mem _ hm)]

/-- A cut at the first occurrence of the separator. -/
theorem cut3_append {a b : List Char} {sep : Char} (h : sep ∉ a) :
    cut3 (a ++ sep :: b) sep = (a, b, true) := by
  induction a with
  | nil => simp [cut3]
  | cons c cs ih =>
    have hc : (c == sep) = false := by
      simp only [beq_eq_false_iff_ne]
      exact fun he => h (he ▸ List.mem_cons_self c cs)
    simp [cut3, hc, ih fun hm => h (List.mem_cons_of_mem _ hm)]

theorem mem_cut3_fst {l : List Char} {sep x : Char} (h : x ∈ (cut3 l sep).1) : x ∈ l := by
  induction l with
  | nil => simpa [cut3] using h
  | cons c cs ih =>
    by_cases hc : (c == sep) = true
    · simp [cut3, hc] at h
    · simp only [cut3, hc] at h
      simp only [Bool.false_eq_true, if_false] at h
      rcases List.mem_cons.mp h with h1 | h2
      · exact h1 ▸ List.mem_cons_self c cs
      · exact List.mem_cons_of_mem _ (ih h2)

theorem mem_cut3_snd {l : List Char} {sep x : Char} (h : x ∈ (cut3 l sep).2.1) : x ∈ l := by
  induction l with
  | nil => simpa [cut3] using h
  | cons c cs ih =>
    by_cases hc : (c == sep) = true
    · simp only [cut3, hc, if_true] at h
      exact List.mem_cons_of_mem _ h
    · simp only [cut3, hc] at h
      simp only [Bool.false_eq_true, if_false] at h
      exact List.mem_cons_of_mem _ (ih h)

theorem cut3_fst_not_sep (l : List Char) (sep : Char) : sep ∉ (cut3 l sep).1 := by
  induction l with
  | nil => simp [cut3]
  | cons c cs ih =>
    by_cases hc : (c == sep) = true
    · simp [cut3, hc]
    · simp only [cut3, hc]
      simp only [Bool.false_eq_true, if_false]
      intro hm
      rcases List.mem_cons.mp hm with h1 | h2
      · exact absurd (beq_iff_eq.mpr h1.symm) (by simp [hc])
      · exact ih h2

/-- A span at a separator that does not occur returns the input whole. -/
theorem spanUntil_not_mem {l : List Char} {sep : Char} (h : sep ∉ l) :
    spanUntil sep l = (l, []) := by
  induction l with
  | nil => rfl
  | cons c cs ih =>
    have hc : (c == sep) = false := by
      simp only [beq_eq_false_iff_ne]
      exact fun he => h (he ▸ List.mem_cons_self c cs)
    simp [spanUntil, hc, ih fun hm => h (List.mem_cons_of_mem _ hm)]

/-- A span up to the first occurrence of the separator. -/
theorem spanUntil_append {a b : List Char} {sep : Char} (h : sep ∉ a) :
    spanUntil sep (a ++ sep :: b) = (a, sep :: b) := by
  induction a with
  | nil => simp [spanUntil]
  | cons c cs ih =>
    have hc : (c == sep) = false := by
      simp only [beq_eq_false_iff_ne]
      exact fun he => h (he ▸ List.mem_cons_self c cs)
    simp [spanUntil, hc, ih fun hm => h (List.mem_cons_of_mem _ hm)]

theorem mem_spanUntil_fst {l : List Char} {sep x : Char} (h : x ∈ (spanUntil sep l).1) : x ∈ l := by
  induction l with
  | nil => simpa [spanUntil] using h
  | cons c cs ih =>
    by_cases hc : (c == sep) = true
    · simp [spanUntil, hc] at h
    · simp only [spanUntil, hc] at h
      simp only [Bool.false_eq_true, if_false] at h
      rcases List.mem_cons.mp h with h1 | h2
      · exact h1 ▸ List.mem_cons_self c cs
      · exact List.mem_cons_of_mem _ (ih h2)

theorem mem_spanUntil_snd {l : List Char} {sep x : Char} (h : x ∈ (spanUntil sep l).2) : x ∈ l := by
  induction l with
  | nil => simpa [spanUntil] using h
  | cons c cs ih =>
    by_cases hc : (c == sep) = true
    · simp only [spanUntil, hc, if_true] at h
      exact h
    · simp only [spanUntil, hc] at h
      simp only [Bool.false_eq_true, if_false] at h
      exact List.mem_cons_of_mem _ (ih h)

theorem spanUntil_fst_not_sep (l : List Char) (sep : Char) : sep ∉ (spanUntil sep l).1 := by
  induction l with
  | nil => simp [spanUntil]
  | cons c cs ih =>
    by_cases hc : (c == sep) = true
    · simp [spanUntil, hc]
    · simp only [spanUntil, hc]
      simp only [Bool.false_eq_true, if_false]
      intro hm
      rcases List.mem_cons.mp hm with h1 | h2
      · exact absurd (beq_iff_eq.mpr h1.symm) (by simp [hc])
      · exact ih h2

/-- The second span component is empty or starts with the separator. -/
theorem spanUntil_snd_shape (l : List Char) (sep : Char) :
    (spanUntil sep l).2 = [] ∨ ((spanUntil sep l).2).head? = some sep := by
  induction l with
  | nil => left; rfl
  | cons c cs ih =>
    by_cases hc : (c == sep) = true
    · right
      simp [spanUntil, hc, beq_iff_eq.mp hc]
    · simpa [spanUntil, hc] using ih

/-- What `getSchemeAux` returns as the remainder is part of its input. -/
theorem getSchemeAux_rest_mem {acc l sch rest : List Char} {x : Char}
    (h : getSchemeAux acc l = .ok (some (sch, rest))) (hx : x ∈ rest) : x ∈ l := by
  induction l generalizing acc with
  | nil => simp [getSchemeAux] at h
  | cons c cs ih =>
    simp only [getSchemeAux] at h
    by_cases h1 : isAlphaChar c = true
    · rw [if_pos h1] at h
      exact List.mem_cons_of_mem _ (ih h)
    · rw [if_neg h1] at h
      by_cases h2 : isSchemeExtraChar c = true
      · rw [if_pos h2] at h
        by_cases h3 : acc.isEmpty = true
        · rw [if_pos h3] at h
          cases h
        · rw [if_neg h3] at h
          exact List.mem_cons_of_mem _ (ih h)
      · rw [if_neg h2] at h
        by_cases h4 : (c == ':') = true
        · rw [if_pos h4] at h
          by_cases h5 : acc.isEmpty = true
          · rw [if_pos h5] at h
            cases h
          · rw [if_neg h5] at h
            cases h
            exact List.mem_cons_of_mem _ hx
        · rw [if_neg h4] at h
          cases h

/-- What `getSchemeC` returns as the remainder is part of its input. -/
theorem getSchemeC_rest_mem {l sch rest : List Char} {x : Char}
    (h : getSchemeC l = .ok (sch, rest)) (hx : x ∈ rest) : x ∈ l := by
  unfold getSchemeC at h
  cases ha : getSchemeAux [] l with
  | error e => rw [ha] at h; cases h
  | ok o =>
    rw [ha] at h
    cases o with
    | none =>
      cases h
      exact hx
    | some p =>
      cases h
      exact getSchemeAux_rest_mem ha hx

/-- `TrimSuffix` keeps only characters of its input. -/
theorem mem_trimSufS {s suf : String} {x : Char} (h : x ∈ chars (trimSufS s suf)) :
    x ∈ chars s := by
  unfold trimSufS at h
  split at h
  · rw [chars_strOf] at h
    have := List.mem_reverse.mp h
    have := List.mem_of_mem_drop this
    exact List.mem_reverse.mp this
  · exact h

/-- Characters of a control-free list are not control bytes. -/
theorem not_ctl_of_hasCtl_false {l : List Char} (h : hasCtl l = false) {x : Char}
    (hx : x ∈ l) : isCtlChar x = false := by
  by_contra hc
  have hc2 : isCtlChar x = true := by
    cases hb : isCtlChar x
    · exact absurd hb hc
    · rfl
  have : hasCtl l = true := List.any_eq_true.mpr ⟨x, hx, hc2⟩
  rw [this] at h
  cases h

/-- A sublist criterion for control-freeness. -/
theorem hasCtl_false_of_mem {l m : List Char} (h : hasCtl l = false)
    (hm : ∀ x ∈ m, x ∈ l) : hasCtl m = false := by
  cases hb : hasCtl m
  · rfl
  · obtain ⟨x, hx, hcx⟩ := List.any_eq_true.mp hb
    rw [not_ctl_of_hasCtl_false h (hm x hx)] at hcx
    cases hcx

/-- `parseHost` echoes its input on success. -/
theorem parseHostC_ok_eq {a b : List Char} (h : parseHostC a = .ok b) : b = a := by
  unfold parseHostC at h
  cases hl : lastPartFrom ':' a with
  | none =>
    rw [hl] at h
    cases h
    rfl
  | some cp =>
    rw [hl] at h
    dsimp only at h
    split at h
    · cases h
      rfl
    · cases h

/-- Structure of a successful `urlParse` result: no component except the
fragment contains `#`; and when the result has a host (the authority form),
the opaque part is empty, the host is free of `/`, `?` and control bytes
and revalidates, the path is empty or rooted and free of `?`, `#` and
control bytes, and the query is free of `#` and control bytes. -/
theorem urlParse_ok_facts (s : String) (w : GoURL) (h : urlParse s = .ok w) :
    ('#' ∉ chars w.opq ∧ '#' ∉ chars w.host ∧ '#' ∉ chars w.path ∧ '#' ∉ chars w.rawQuery)
    ∧ (w.host ≠ "" →
        w.opq = ""
        ∧ '/' ∉ chars w.host
        ∧ '?' ∉ chars w.host
        ∧ hasCtl (chars w.host) = false
        ∧ parseHostC (chars w.host) = .ok (chars w.host)
        ∧ (chars w.path = [] ∨ (chars w.path).head? = some '/')
        ∧ '?' ∉ chars w.path
        ∧ hasCtl (chars w.path) = false
        ∧ hasCtl (chars w.rawQuery) = false) := by
  unfold urlParse at h
  dsimp only at h
  cases hpc : parseCore (cut3 (chars s) '#').1 with
  | error e =>
    rw [hpc] at h
    cases h
  | ok u =>
    rw [hpc] at h
    dsimp only at h
    cases h
    have hnoHashL : '#' ∉ (cut3 (chars s) '#').1 := cut3_fst_not_sep _ _
    unfold parseCore at hpc
    split at hpc
    · cases hpc
    · rename_i hctl
      have hctlL : hasCtl (cut3 (chars s) '#').1 = false := by
        cases hb : hasCtl (cut3 (chars s) '#').1
        · rfl
        · exact absurd hb hctl
      cases hgs : getSchemeC (cut3 (chars s) '#').1 with
      | error e => rw [hgs] at hpc; cases hpc
      | ok p =>
        rcases p with ⟨schemeRaw, restAndQuery⟩
        rw [hgs] at hpc
        dsimp only at hpc
        have hsubRest : ∀ x ∈ (cut3 restAndQuery '?').1, x ∈ (cut3 (chars s) '#').1 :=
          fun x hx => getSchemeC_rest_mem hgs (mem_cut3_fst hx)
        have hsubQ : ∀ x ∈ (cut3 restAndQuery '?').2.1, x ∈ (cut3 (chars s) '#').1 :=
          fun x hx => getSchemeC_rest_mem hgs (mem_cut3_snd hx)
        have hnoQRest : '?' ∉ (cut3 restAndQuery '?').1 := cut3_fst_not_sep _ _
        split at hpc
        · cases hpc
          refine ⟨⟨fun hx => hnoHashL (hsubRest _ hx), by simp [chars], by simp [chars],
            fun hx => hnoHashL (hsubQ _ (by simpa [chars_strOf] using hx))⟩, ?_⟩
          intro hh
          exact absurd rfl hh
        · split at hpc
          · cases hpc
          · split at hpc
            · rename_i hcond
              cases hph : parseHostC (spanUntil '/' ((cut3 restAndQuery '?').1.drop 2)).1 with
              | error e => rw [hph] at hpc; cases hpc
              | ok host =>
                rw [hph] at hpc
                cases hpc
                have hhost := parseHostC_ok_eq hph
                subst hhost
                have hsubHost : ∀ x ∈ (spanUntil '/' ((cut3 restAndQuery '?').1.drop 2)).1,
                    x ∈ (cut3 (chars s) '#').1 :=
                  fun x hx => hsubRest _ (List.mem_of_mem_drop (mem_spanUntil_fst hx))
                have hsubPath : ∀ x ∈ (spanUntil '/' ((cut3 restAndQuery '?').1.drop 2)).2,
                    x ∈ (cut3 (chars s) '#').1 :=
                  fun x hx => hsubRest _ (List.mem_of_mem_drop (mem_spanUntil_snd hx))
                refine ⟨⟨by simp [chars], ?_, ?_, ?_⟩, ?_⟩
                · intro hx
                  exact hnoHashL (hsubHost _ (by simpa [chars_strOf] using hx))
                · intro hx
                  exact hnoHashL (hsubPath _ (by simpa [chars_strOf] using hx))
                · intro hx
                  exact hnoHashL (hsubQ _ (by simpa [chars_strOf] using hx))
                · intro _
                  refine ⟨rfl, ?_, ?_, ?_, ?_, ?_, ?_, ?_, ?_⟩
                  · simpa [chars_strOf] using spanUntil_fst_not_sep
                      ((cut3 restAndQuery '?').1.drop 2) '/'
                  · intro hx
                    exact hnoQRest (List.mem_of_mem_drop
                      (mem_spanUntil_fst (by simpa [chars_strOf] using hx)))
                  · exact hasCtl_false_of_mem hctlL
                      (fun x hx => hsubHost _ (by simpa [chars_strOf] using hx))
                  · simpa [chars_strOf] using hph
                  · simpa [chars_strOf] using spanUntil_snd_shape
                      ((cut3 restAndQuery '?').1.drop 2) '/'
                  · intro hx
                    exact hnoQRest (List.mem_of_mem_drop
                      (mem_spanUntil_snd (by simpa [chars_strOf] using hx)))
                  · exact hasCtl_false_of_mem hctlL
                      (fun x hx => hsubPath _ (by simpa [chars_strOf] using hx))
                  · exact hasCtl_false_of_mem hctlL
                      (fun x hx => hsubQ _ (by simpa [chars_strOf] using hx))
            · cases hpc
              refine ⟨⟨by simp [chars], by simp [chars], ?_,
                fun hx => hnoHashL (hsubQ _ (by simpa [chars_strOf] using hx))⟩, ?_⟩
              · intro hx
                exact hnoHashL (hsubRest _ (by simpa [chars_strOf] using hx))
              · intro hh
                exact absurd rfl hh

theorem getSchemeC_scheme (sch : String) (hs : sch = "http" ∨ sch = "https") (r : List Char) :
    getSchemeC (chars sch ++ ':' :: r) = .ok (chars sch, r) := by
  rcases hs with h | h <;> subst h <;> rfl

theorem bne_true_of_ne {a b : String} (h : a ≠ b) : (a != b) = true := by
  simpa using h

theorem chars_eq_nil_iff {s : String} : chars s = [] ↔ s = "" := by
  constructor
  · intro h
    exact chars_inj (by simpa using h)
  · intro h
    subst h
    rfl



theorem lowerS_scheme (sch : String) (hs : sch = "http" ∨ sch = "https") :
    lowerS (strOf (chars sch)) = sch := by
  rcases hs with h | h <;> subst h <;> rfl

theorem urlParse_string_rt (w : GoURL)
    (hs : w.scheme = "http" ∨ w.scheme = "https")
    (ho : w.opq = "")
    (hf : w.fragment = "")
    (hh : w.host ≠ "")
    (hhost1 : '/' ∉ chars w.host) (hhost2 : '#' ∉ chars w.host) (hhost3 : '?' ∉ chars w.host)
    (hhost4 : hasCtl (chars w.host) = false)
    (hhost5 : parseHostC (chars w.host) = .ok (chars w.host))
    (hpath1 : chars w.path = [] ∨ (chars w.path).head? = some '/')
    (hpath2 : '#' ∉ chars w.path) (hpath3 : '?' ∉ chars w.path)
    (hpath4 : hasCtl (chars w.path) = false)
    (hq1 : '#' ∉ chars w.rawQuery) (hq2 : hasCtl (chars w.rawQuery) = false) :
    urlParse w.string = .ok w := by
  obtain ⟨sch, opq, host, path, query, frag⟩ := w
  dsimp only at hs ho hf hh hhost1 hhost2 hhost3 hhost4 hhost5 hpath1 hpath2 hpath3 hpath4 hq1 hq2
  subst ho
  subst hf
  have hsne : (sch != "") = true := by
    rcases hs with h | h <;> subst h <;> rfl
  have hhne : (host != "") = true := bne_true_of_ne hh
  have hglue : (path != "" && !hasPreS path "/" && host != "") = false := by
    rcases hpath1 with hp | hp
    · have : path = "" := chars_eq_nil_iff.mp hp
      subst this
      rfl
    · cases hcp : chars path with
      | nil => rw [hcp] at hp; cases hp
      | cons c t =>
        rw [hcp] at hp
        simp at hp
        subst hp
        have : hasPreS path "/" = true := by
          unfold hasPreS
          rw [hcp]
          rfl
        simp [this]
  have hA : chars (GoURL.string ⟨sch, "", host, path, query, ""⟩) =
      chars sch ++ ':' :: '/' :: '/' :: (chars host ++ chars path
        ++ (if (query != "") = true then '?' :: chars query else [])) := by
    unfold GoURL.string
    rw [chars_strOf]
    dsimp only
    rw [hglue]
    rw [hsne, hhne]
    simp [List.append_assoc]
  have hschHash : '#' ∉ chars sch := by
    rcases hs with h | h <;> subst h <;> decide
  have hschCtl : hasCtl (chars sch) = false := by
    rcases hs with h | h <;> subst h <;> rfl
  have hlow := lowerS_scheme sch hs
  have hhostHead : isPreC ['/', '/', '/'] ('/' :: '/' :: (chars host ++ chars path)) = false := by
    cases hch : chars host with
    | nil => exact absurd (chars_eq_nil_iff.mp hch) hh
    | cons c t =>
      have hcne : ('/' == c) = false := by
        simp only [beq_eq_false_iff_ne]
        intro he
        exact hhost1 (he ▸ (hch ▸ List.mem_cons_self c t) : '/' ∈ chars host)
      simp [isPreC, hch, hcne]
  have hrestQ : ('/' :: '/' :: (chars host ++ chars path)).drop 2 = chars host ++ chars path := rfl
  have hspan : spanUntil '/' (chars host ++ chars path) = (chars host, chars path) := by
    rcases hpath1 with hp | hp
    · rw [hp, List.append_nil, spanUntil_not_mem hhost1]
    · cases hcp : chars path with
      | nil => rw [hcp] at hp; cases hp
      | cons c t =>
        rw [hcp] at hp
        simp at hp
        subst hp
        exact spanUntil_append hhost1
  by_cases hqe : query = ""
  · subst hqe
    have hA2 : chars (GoURL.string ⟨sch, "", host, path, "", ""⟩) =
        chars sch ++ ':' :: '/' :: '/' :: (chars host ++ chars path) := by
      rw [hA]
      simp
    have hcongr : urlParse (GoURL.string ⟨sch, "", host, path, "", ""⟩)
        = urlParse (strOf (chars sch ++ ':' :: '/' :: '/' :: (chars host ++ chars path))) := by
      unfold urlParse
      rw [hA2, chars_strOf]
    rw [hcongr]
    have hnoHash : '#' ∉ chars sch ++ ':' :: '/' :: '/' :: (chars host ++ chars path) := by
      simp [List.mem_append, List.mem_cons, hschHash, hhost2, hpath2]
    have hnoQ : '?' ∉ '/' :: '/' :: (chars host ++ chars path) := by
      simp [List.mem_cons, List.mem_append, hhost3, hpath3]
    have hctlL : hasCtl (chars sch ++ ':' :: '/' :: '/' :: (chars host ++ chars path)) = false := by
      unfold hasCtl at hschCtl hhost4 hpath4 ⊢
      simp [List.any_append, hschCtl, hhost4, hpath4,
        show isCtlChar ':' = false from rfl, show isCtlChar '/' = false from rfl]
    unfold urlParse
    rw [chars_strOf, cut3_not_mem hnoHash]
    dsimp only
    unfold parseCore
    simp only [hctlL, Bool.false_eq_true, if_false]
    rw [getSchemeC_scheme sch hs]
    dsimp only
    rw [cut3_not_mem hnoQ]
    dsimp only
    rw [hlow]
    simp only [isPreC, show (('/' : Char) == '/') = true from rfl, Bool.true_and,
      Bool.not_true, Bool.false_and, Bool.false_eq_true, if_false, hsne, Bool.true_or,
      Bool.true_and, if_true]
    rw [hrestQ, hspan]
    dsimp only
    rw [hhost5]
    rcases hpath1 with hp | hp
    · have hpe : path = "" := chars_eq_nil_iff.mp hp
      subst hpe
      simp [strOf_chars, show strOf ([] : List Char) = "" from rfl]
    · simp [strOf_chars, show strOf ([] : List Char) = "" from rfl]
  · have hqne : (query != "") = true := bne_true_of_ne hqe
    have hA2 : chars (GoURL.string ⟨sch, "", host, path, query, ""⟩) =
        chars sch ++ ':' :: '/' :: '/' :: (chars host ++ chars path ++ '?' :: chars query) := by
      rw [hA, hqne]
      simp
    have hcongr : urlParse (GoURL.string ⟨sch, "", host, path, query, ""⟩)
        = urlParse (strOf (chars sch ++ ':' :: '/' :: '/' ::
            (chars host ++ chars path ++ '?' :: chars query))) := by
      unfold urlParse
      rw [hA2, chars_strOf]
    rw [hcongr]
    have hnoHash : '#' ∉ chars sch ++ ':' :: '/' :: '/' ::
        (chars host ++ chars path ++ '?' :: chars query) := by
      simp [List.mem_append, List.mem_cons, hschHash, hhost2, hpath2, hq1]
    have hctlL : hasCtl (chars sch ++ ':' :: '/' :: '/' ::
        (chars host ++ chars path ++ '?' :: chars query)) = false := by
      unfold hasCtl at hschCtl hhost4 hpath4 hq2 ⊢
      simp [List.any_append, hschCtl, hhost4, hpath4, hq2,
        show isCtlChar ':' = false from rfl, show isCtlChar '/' = false from rfl,
        show isCtlChar '?' = false from rfl]
    have hsplitQ : '/' :: '/' :: (chars host ++ chars path ++ '?' :: chars query)
        = ('/' :: '/' :: (chars host ++ chars path)) ++ '?' :: chars query := by
      simp
    have hnoQpre : '?' ∉ '/' :: '/' :: (chars host ++ chars path) := by
      simp [List.mem_cons, List.mem_append, hhost3, hpath3]
    unfold urlParse
    rw [chars_strOf, cut3_not_mem hnoHash]
    dsimp only
    unfold parseCore
    simp only [hctlL, Bool.false_eq_true, if_false]
    rw [getSchemeC_scheme sch hs]
    dsimp only
    rw [hsplitQ, cut3_append hnoQpre]
    dsimp only
    rw [hlow]
    simp only [isPreC, show (('/' : Char) == '/') = true from rfl, Bool.true_and,
      Bool.not_true, Bool.false_and, Bool.false_eq_true, if_false, hsne, Bool.true_or,
      Bool.true_and, if_true]
    rw [hrestQ, hspan]
    dsimp only
    rw [hhost5]
    rcases hpath1 with hp | hp
    · have hpe : path = "" := chars_eq_nil_iff.mp hp
      subst hpe
      simp [strOf_chars, show strOf ([] : List Char) = "" from rfl]
    · simp [strOf_chars, show strOf ([] : List Char) = "" from rfl]

theorem trimSufS_of_not_suf {s suf : String} (h : hasSufS s suf = false) :
    trimSufS s suf = s := by
  unfold trimSufS
  rw [h]
  simp

/-- Cutting after a separator-free prefix skips over it. -/
theorem cut3_prefix {a : List Char} {sep : Char} (h : sep ∉ a) (b : List Char) :
    cut3 (a ++ b) sep = (a ++ (cut3 b sep).1, (cut3 b sep).2.1, (cut3 b sep).2.2) := by
  induction a with
  | nil => simp [cut3]
  | cons c cs ih =>
    have hc : (c == sep) = false := by
      simp only [beq_eq_false_iff_ne]
      exact fun he => h (he ▸ List.mem_cons_self c cs)
    simp [cut3, hc, ih fun hm => h (List.mem_cons_of_mem _ hm)]

/-- A `urlParse` of a hash-free string has an empty fragment. -/
theorem urlParse_noHash_fragment {s : String} {w : GoURL} (hn : '#' ∉ chars s)
    (h : urlParse s = .ok w) : w.fragment = "" := by
  unfold urlParse at h
  rw [cut3_not_mem hn] at h
  dsimp only at h
  cases hpc : parseCore (chars s) with
  | error e => rw [hpc] at h; cases h
  | ok v =>
    rw [hpc] at h
    cases h
    rfl

/-- The serialization of a URL whose components are hash-free and whose
fragment is empty contains no `#`. -/
theorem string_noHash (v : GoURL) (hsch : '#' ∉ chars v.scheme) (ho : '#' ∉ chars v.opq)
    (hh : '#' ∉ chars v.host) (hp : '#' ∉ chars v.path) (hq : '#' ∉ chars v.rawQuery)
    (hf : v.fragment = "") : '#' ∉ chars v.string := by
  obtain ⟨sch, opq, host, path, query, frag⟩ := v
  dsimp only at hsch ho hh hp hq hf
  subst hf
  unfold GoURL.string
  rw [chars_strOf]
  intro hm
  split_ifs at hm <;>
    simp_all [List.mem_append, List.mem_cons]

/-- `hasPrefix "/"` is false on the serialization of an http(s) URL. -/
theorem hasPreS_string_slash (v : GoURL) (hv : v.scheme = "http" ∨ v.scheme = "https") :
    hasPreS v.string "/" = false := by
  unfold hasPreS GoURL.string
  rw [chars_strOf]
  rcases hv with h | h <;> rw [h] <;> simp [isPreC]

/-- Parsing the serialization of an http(s) URL preserves the scheme. -/
theorem urlParse_string_scheme (v : GoURL) (hv : v.scheme = "http" ∨ v.scheme = "https")
    (w : GoURL) (h : urlParse v.string = .ok w) : w.scheme = v.scheme := by
  have hsne : (v.scheme != "") = true := by
    rcases hv with h2 | h2 <;> rw [h2] <;> rfl
  have hschHash : '#' ∉ chars v.scheme := by
    rcases hv with h2 | h2 <;> rw [h2] <;> decide
  have hA0 : chars v.string = chars v.scheme ++ ':' ::
      ((if v.opq != "" then chars v.opq
        else (if v.scheme != "" || v.host != "" then
            (if v.host != "" || v.path != "" then '/' :: '/' :: chars v.host else [])
          else [])
          ++ (if v.path != "" && !hasPreS v.path "/" && v.host != "" then ['/'] else [])
          ++ chars v.path)
        ++ (if v.rawQuery != "" then '?' :: chars v.rawQuery else [])
        ++ (if v.fragment != "" then '#' :: chars v.fragment else [])) := by
    unfold GoURL.string
    rw [chars_strOf, hsne]
    simp [List.append_assoc]
  obtain ⟨R, hA⟩ : ∃ R, chars v.string = chars v.scheme ++ ':' :: R := ⟨_, hA0⟩
  have hnope : '#' ∉ chars v.scheme ++ [':'] := by
    simp [List.mem_append, List.mem_cons, hschHash]
  have hcut : cut3 (chars v.string) '#'
      = ((chars v.scheme ++ [':']) ++ (cut3 R '#').1, (cut3 R '#').2.1, (cut3 R '#').2.2) := by
    rw [hA, show chars v.scheme ++ ':' :: R = (chars v.scheme ++ [':']) ++ R by simp]
    exact cut3_prefix hnope R
  unfold urlParse at h
  rw [hcut] at h
  dsimp only at h
  cases hpc : parseCore ((chars v.scheme ++ [':']) ++ (cut3 R '#').1) with
  | error e => rw [hpc] at h; cases h
  | ok v2 =>
    rw [hpc] at h
    cases h
    show v2.scheme = v.scheme
    unfold parseCore at hpc
    split at hpc
    · cases hpc
    · rw [show (chars v.scheme ++ [':']) ++ (cut3 R '#').1
          = chars v.scheme ++ ':' :: (cut3 R '#').1 by simp] at hpc
      rw [getSchemeC_scheme v.scheme hv] at hpc
      dsimp only at hpc
      rw [lowerS_scheme v.scheme hv] at hpc
      split at hpc
      · cases hpc
        rfl
      · split at hpc
        · cases hpc
        · split at hpc
          · cases hph : parseHostC
                (spanUntil '/' ((cut3 (cut3 R '#').1 '?').1.drop 2)).1 with
            | error e2 => rw [hph] at hpc; cases hpc
            | ok host2 =>
              rw [hph] at hpc
              cases hpc
              rfl
          · cases hpc
            rfl

/-- C9 (amended): canonicalization is idempotent for every accepted href
whose canonical URL has a path not ending in `/`: if
`parseURL parent href = (true, c)` and `c` parses to a URL whose path does
not end in `/` (`TrimSuffix` strips one `/` per pass, so a path ending in
`/` — produced from an href path ending in `//` — is not a fixpoint, see
the counterexample), then `parseURL parent c = (true, c)`. -/
theorem parseURL_idempotent (parent : GoURL) (href c : String) (u : GoURL)
    (h1 : parseURL parent href = .ok (true, c))
    (h2 : urlParse c = .ok u)
    (h3 : hasSufS u.path "/" = false) :
    parseURL parent c = .ok (true, c) := by
  unfold parseURL at h1
  by_cases habs : (!parent.isAbs) = true
  · rw [if_pos habs] at h1
    simp at h1
  · rw [if_neg habs] at h1
    have habs2 : parent.isAbs = true := by
      cases hb : parent.isAbs
      · rw [hb] at habs
        exact absurd rfl habs
      · rfl
    have hpabs : parent.scheme ≠ "" := by
      intro he
      unfold GoURL.isAbs at habs2
      rw [he] at habs2
      cases habs2
    dsimp only at h1
    cases hP1 : urlParse (if hasPreS href "/" = true
        then ({ parent with path := href } : GoURL).string else href) with
    | error e => rw [hP1] at h1; simp at h1
    | ok result0 =>
      rw [hP1] at h1
      dsimp only at h1
      set r1 : GoURL := if (result0.scheme == "") = true
        then { result0 with scheme := parent.scheme } else result0 with hr1
      set r2 : GoURL := { r1 with path := trimSufS r1.path "/", fragment := "" } with hr2
      split at h1
      · simp at h1
      · rename_i hsch
        cases hP2 : urlParse r2.string with
        | error e => rw [hP2] at h1; simp at h1
        | ok resultF =>
          rw [hP2] at h1
          dsimp only at h1
          split at h1
          · simp at h1
          · rename_i hHost
            split at h1
            · simp at h1
            · rename_i hSame
              split at h1
              · simp at h1
              · rename_i hPort
                split at h1
                · simp at h1
                · rename_i hPath
                  have hc : resultF.string = c := by
                    simpa using h1
                  have hr1ne : r1.scheme ≠ "" := by
                    rw [hr1]
                    split
                    · exact hpabs
                    · rename_i h0
                      intro he
                      exact h0 (by rw [he]; rfl)
                  have hr1s : r1.scheme = "http" ∨ r1.scheme = "https" := by
                    by_cases hx : r1.scheme = "http"
                    · exact Or.inl hx
                    · by_cases hy : r1.scheme = "https"
                      · exact Or.inr hy
                      · exact absurd (by
                          rw [bne_true_of_ne hr1ne, bne_true_of_ne hx, bne_true_of_ne hy]
                          rfl) hsch
                  have hr2s : r2.scheme = r1.scheme := by rw [hr2]
                  have hr2opq : r2.opq = result0.opq := by
                    rw [hr2]
                    show r1.opq = result0.opq
                    rw [hr1]
                    split <;> rfl
                  have hr2host : r2.host = result0.host := by
                    rw [hr2]
                    show r1.host = result0.host
                    rw [hr1]
                    split <;> rfl
                  have hr2query : r2.rawQuery = result0.rawQuery := by
                    rw [hr2]
                    show r1.rawQuery = result0.rawQuery
                    rw [hr1]
                    split <;> rfl
                  have hr2path : r2.path = trimSufS result0.path "/" := by
                    rw [hr2]
                    show trimSufS r1.path "/" = trimSufS result0.path "/"
                    have : r1.path = result0.path := by
                      rw [hr1]
                      split <;> rfl
                    rw [this]
                  have hr2frag : r2.fragment = "" := by rw [hr2]
                  obtain ⟨hash0opq, hash0host, hash0path, hash0query⟩ :=
                    (urlParse_ok_facts _ result0 hP1).1
                  have hFs2 : resultF.scheme = "http" ∨ resultF.scheme = "https" := by
                    rw [urlParse_string_scheme r2 (by rw [hr2s]; exact hr1s) resultF hP2, hr2s]
                    exact hr1s
                  have hnoHash2 : '#' ∉ chars r2.string := by
                    refine string_noHash r2 ?_ ?_ ?_ ?_ ?_ hr2frag
                    · rw [hr2s]
                      rcases hr1s with h | h <;> rw [h] <;> decide
                    · rw [hr2opq]
                      exact hash0opq
                    · rw [hr2host]
                      exact hash0host
                    · rw [hr2path]
                      exact fun hm => hash0path (mem_trimSufS hm)
                    · rw [hr2query]
                      exact hash0query
                  have hFfrag : resultF.fragment = "" := urlParse_noHash_fragment hnoHash2 hP2
                  have hHostNe : resultF.host ≠ "" := by
                    intro he
                    exact hHost (by rw [he]; rfl)
                  obtain ⟨hashFopq, hashFhost, hashFpath, hashFquery⟩ :=
                    (urlParse_ok_facts _ resultF hP2).1
                  obtain ⟨hFopq, hFh1, hFh3, hFh4, hFh5, hFp1, hFp3, hFp4, hFq2⟩ :=
                    (urlParse_ok_facts _ resultF hP2).2 hHostNe
                  have hrt : urlParse resultF.string = .ok resultF :=
                    urlParse_string_rt resultF hFs2 hFopq hFfrag hHostNe
                      hFh1 hashFhost hFh3 hFh4 hFh5 hFp1 hashFpath hFp3 hFp4 hashFquery hFq2
                  have hrtc : urlParse c = .ok resultF := by rw [← hc]; exact hrt
                  have hu : u = resultF := by
                    rw [h2] at hrtc
                    exact Except.ok.inj hrtc
                  have htrim : trimSufS resultF.path "/" = resultF.path :=
                    trimSufS_of_not_suf (hu ▸ h3)
                  unfold parseURL
                  rw [if_neg habs]
                  dsimp only
                  have hpre : hasPreS c "/" = false := by
                    rw [← hc]
                    exact hasPreS_string_slash resultF hFs2
                  simp only [hpre, Bool.false_eq_true, if_false]
                  rw [hrtc]
                  dsimp only
                  have hFsne : (resultF.scheme == "") = false := by
                    rcases hFs2 with h | h <;> rw [h] <;> rfl
                  simp only [hFsne, Bool.false_eq_true, if_false]
                  have hcondF : (resultF.scheme != "" && resultF.scheme != "http"
                      && resultF.scheme != "https") = false := by
                    rcases hFs2 with h | h <;> rw [h] <;> rfl
                  simp only [hcondF, Bool.false_eq_true, if_false]
                  have hrec : ({ resultF with path := resultF.path, fragment := "" } : GoURL)
                      = resultF := by rw [← hFfrag]
                  rw [htrim, hrec, hrt]
                  dsimp only
                  have hHostb : (resultF.host == "") = false := by
                    cases hb : (resultF.host == "") with
                    | false => rfl
                    | true => exact absurd hb hHost
                  have hSameb : (!sameHost resultF.host parent.host) = false := by
                    cases hb : (!sameHost resultF.host parent.host) with
                    | false => rfl
                    | true => exact absurd hb hSame
                  have hPortb : (resultF.port != "" && resultF.port != parent.port) = false := by
                    cases hb : (resultF.port != "" && resultF.port != parent.port) with
                    | false => rfl
                    | true => exact absurd hb hPort
                  have hPathb : (resultF.path == parent.path) = false := by
                    cases hb : (resultF.path == parent.path) with
                    | false => rfl
                    | true => exact absurd hb hPath
                  simp only [hHostb, hSameb, hPortb, hPathb, Bool.false_eq_true, if_false]
                  rw [hc]

/-- Witness for `parseURL_idempotent`: `/a` canonicalizes to
`http://example.com/a`, which is a fixpoint. -/
theorem parseURL_idempotent_witness :
    parseURL exParent "http://example.com/a" = .ok (true, "http://example.com/a") :=
  parseURL_idempotent exParent "/a" "http://example.com/a"
    ⟨"http", "", "example.com", "/a", "", ""⟩ (by decide) (by decide) (by decide)
